import Mathlib

/-!
Shallow embedding of the name-disambiguation and interactive-selection core of
`src/bikeshare.py` (functions `abbreviate_initial`, `generate_city_prompts`,
`generate_name_prompts`, `build_options`, `show_prompt`), together with proofs
of the behavioural properties of those functions.

Python strings are modelled as `List Char`; Python `dict` (insertion-ordered,
assignment updates in place or appends) is modelled as an association list with
`dset` / `dget?`; code that can raise (`KeyError`, `IndexError`,
`UnboundLocalError`, the explicit `raise`) is modelled with `Option` / `Except`.
-/

set_option maxHeartbeats 1000000

namespace Bikeshare

/-- A Python string: a sequence of characters. -/
abbrev PyStr := List Char

/-- Coerce a Lean string literal into the Python-string model. -/
def pyStr (s : String) : PyStr := s.toList

/-- Does `hay` start with `needle`?  (Helper for Python's `str.find`.) -/
def leadsWith : PyStr → PyStr → Bool
  | _, [] => true
  | [], _ :: _ => false
  | a :: as, b :: bs => a == b && leadsWith as bs

/-- Python `hay.find(needle) != -1`: does `needle` occur as a contiguous
substring of `hay`? -/
def containsSub : PyStr → PyStr → Bool
  | [], needle => leadsWith [] needle
  | c :: t, needle => leadsWith (c :: t) needle || containsSub t needle

/-- Python dict assignment `d[k] = v`: updates the existing entry in place if
the key is present (keeping its position) and otherwise appends a new entry. -/
def dset {V : Type} : List (PyStr × V) → PyStr → V → List (PyStr × V)
  | [], k, v => [(k, v)]
  | (k0, v0) :: rest, k, v =>
    if k0 = k then (k, v) :: rest else (k0, v0) :: dset rest k v

/-- Python dict lookup `d[k]` / membership: the value at the first (unique)
entry with key `k`, if any. -/
def dget? {V : Type} : List (PyStr × V) → PyStr → Option V
  | [], _ => none
  | (k0, v0) :: rest, k => if k0 = k then some v0 else dget? rest k

/-- Python `city.split(' ')`: split at every single space, keeping empty
pieces (so `""` gives `[""]`, `"a  b"` gives `["a", "", "b"]`). -/
def splitOnSpace : PyStr → List PyStr
  | [] => [[]]
  | c :: rest =>
    if c = ' ' then [] :: splitOnSpace rest
    else
      match splitOnSpace rest with
      | [] => [[c]]
      | t :: ts => (c :: t) :: ts

/-- Python `''.join([part[0] for part in parts])`: the first character of each
part, in order; `none` models the `IndexError` raised when a part is empty. -/
def initialsOf : List PyStr → Option PyStr
  | [] => some []
  | part :: rest =>
    match part.head?, initialsOf rest with
    | some c, some cs => some (c :: cs)
    | _, _ => none

/-- Source `abbreviate_initial` (bikeshare.py lines 38-50): the concatenation
of the first character of each space-split token of `city`. -/
def abbreviate_initial (city : PyStr) : Option PyStr :=
  initialsOf (splitOnSpace city)

/-- Source `'{} [{}]'.format(name, abbreviation)` (lines 70 and 116). -/
def fmtPrompt (name abbreviation : PyStr) : PyStr :=
  name ++ pyStr " [" ++ abbreviation ++ pyStr "]"

/-- The loop of `generate_city_prompts` (lines 64-70): accumulates the prompt
list and the abbreviation dict; fails if `abbreviate_initial` fails. -/
def cityLoop : List PyStr → List (PyStr × PyStr) → List PyStr →
    Option (List PyStr × List (PyStr × PyStr))
  | [], abbreviations, prompts => some (prompts, abbreviations)
  | city :: rest, abbreviations, prompts =>
    match abbreviate_initial city with
    | none => none
    | some abbreviation =>
      cityLoop rest (dset abbreviations abbreviation city)
        (prompts ++ [fmtPrompt city abbreviation])

/-- Source `generate_city_prompts` (lines 52-71). -/
def generate_city_prompts (cities : List PyStr) :
    Option (List PyStr × List (PyStr × PyStr)) :=
  cityLoop cities [] []

/-- The dict of potential abbreviations of `generate_name_prompts`: values are
`none` for a tombstoned ("no definitive name") slot. -/
abbrev PotDict := List (PyStr × Option PyStr)

/-- The substring `'not'` of the catch-all test on line 89. -/
def notSub : PyStr := pyStr "not"

/-- The substring `'all'` of the catch-all test on line 92. -/
def allSub : PyStr := pyStr "all"

/-- The fixed catch-all key `'none'` of line 90. -/
def noneKey : PyStr := pyStr "none"

/-- The fixed catch-all key `'all'` of line 93. -/
def allKey : PyStr := pyStr "all"

/-- Inner loop of `generate_name_prompts` (lines 96-108): grow the prefix of
`name` through the given candidate lengths; on a free slot register and stop;
on a clash with a live earlier name, tombstone that slot and re-register the
earlier name one character longer, then keep growing. -/
def prefixSearch (name : PyStr) : List Nat → PotDict → PotDict
  | [], pa => pa
  | length :: rest, pa =>
    match dget? pa (name.take length) with
    | none => dset pa (name.take length) (some name)
    | some none => prefixSearch name rest pa
    | some (some previous_name) =>
      prefixSearch name rest
        (dset (dset pa (name.take length) none)
          (previous_name.take (length + 1)) (some previous_name))

/-- First loop of `generate_name_prompts` (lines 87-108): catch-all checks,
then the prefix search over lengths `1 .. len(name)` (Python
`range(1, len(name) + 1)`). -/
def buildPotential : List PyStr → PotDict → PotDict
  | [], pa => pa
  | name :: rest, pa =>
    if containsSub name notSub then
      buildPotential rest (dset pa noneKey (some name))
    else if containsSub name allSub then
      buildPotential rest (dset pa allKey (some name))
    else
      buildPotential rest (prefixSearch name (List.range' 1 name.length) pa)

/-- Lines 112-115: drop tombstoned entries, keeping key order. -/
def surviving (pa : PotDict) : List (PyStr × PyStr) :=
  pa.filterMap (fun p => match p.2 with | none => none | some v => some (p.1, v))

/-- Lines 112-115: the name-to-key inverse dict `abbreviation_map`. -/
def invertMap (ab : List (PyStr × PyStr)) : List (PyStr × PyStr) :=
  ab.foldl (fun m p => dset m p.2 p.1) []

/-- Line 116: the prompt list comprehension; `none` models the `KeyError`
raised when a name has no surviving abbreviation. -/
def promptsFor : List PyStr → List (PyStr × PyStr) → Option (List PyStr)
  | [], _ => some []
  | name :: rest, abbreviation_map =>
    match dget? abbreviation_map name with
    | none => none
    | some k =>
      match promptsFor rest abbreviation_map with
      | none => none
      | some ps => some (fmtPrompt name k :: ps)

/-- Source `generate_name_prompts` (lines 73-118). -/
def generate_name_prompts (names : List PyStr) :
    Option (List PyStr × List (PyStr × PyStr)) :=
  let potential_abbreviations := buildPotential names []
  let abbreviations := surviving potential_abbreviations
  let abbreviation_map := invertMap abbreviations
  match promptsFor names abbreviation_map with
  | none => none
  | some prompts => some (prompts, abbreviations)

/-- Source constant `ACRONYMN = 0` (line 35, spelling as in the source). -/
def ACRONYMN : Nat := 0

/-- Source constant `PROPER_NAME = 1` (line 36). -/
def PROPER_NAME : Nat := 1

/-- Python `', '.join(strings)`. -/
def joinWith (sep : PyStr) : List PyStr → PyStr
  | [] => []
  | [s] => s
  | s :: t :: rest => s ++ sep ++ joinWith sep (t :: rest)

/-- The enumeration step of `build_options` (lines 139-147, the spec's
`join_enumeration`): `none` models the two failure modes of the source — on a
one-element list the local `options` is never assigned (only `city_part` is),
so `return options` raises `UnboundLocalError`; on an empty list `prompts[-1]`
raises `IndexError`. -/
def join_enumeration (prompts : List PyStr) : Option PyStr :=
  if prompts.length = 1 then none
  else
    match prompts.getLast? with
    | none => none
    | some last => some (joinWith (pyStr ", ") prompts.dropLast ++ pyStr " or " ++ last)

/-- Source `build_options` (lines 120-147). -/
def build_options (names : List PyStr) (abbreviation_type : Nat) :
    Option (PyStr × List (PyStr × PyStr)) :=
  match (if abbreviation_type = ACRONYMN then generate_city_prompts names
         else generate_name_prompts names) with
  | none => none
  | some (prompts, abbreviations) =>
    match join_enumeration prompts with
    | none => none
    | some options => some (options, abbreviations)

/-- Python `str.lower()` on the ASCII letters used by the program. -/
def pyLower (s : PyStr) : PyStr := s.map Char.toLower

/-- Inner loop of `show_prompt` (lines 188-193): the value of the first map
entry whose key or value matches the raw input case-insensitively. -/
def matchAttempt : List (PyStr × PyStr) → PyStr → Option PyStr
  | [], _ => none
  | (key, value) :: rest, raw =>
    if pyLower raw = pyLower key ∨ pyLower raw = pyLower value then some value
    else matchAttempt rest raw

/-- Source constant `MAX_PROMPTS = 3` (line 185). -/
def MAX_PROMPTS : Nat := 3

/-- The apostrophe character of the `"''"` marker on line 197. -/
def quoteChar : Char := Char.ofNat 39

/-- The error payload of line 197: `raw or "''"`. -/
def invalidPayload (raw : PyStr) : PyStr :=
  if raw = [] then [quoteChar, quoteChar] else raw

/-- Retry loop of `show_prompt` (lines 186-197): `remaining` counts the loop
iterations left out of `MAX_PROMPTS`, `index` is the current attempt number;
after the last non-matching attempt the `raise` carries the final raw input. -/
def promptAttempts (prompt_map : List (PyStr × PyStr)) (inputs : Nat → PyStr)
    (index : Nat) : Nat → Except PyStr PyStr
  | 0 => Except.error (invalidPayload (inputs (MAX_PROMPTS - 1)))
  | remaining + 1 =>
    match matchAttempt prompt_map (inputs index) with
    | some selected => Except.ok selected
    | none => promptAttempts prompt_map inputs (index + 1) remaining

/-- The read/validate/retry loop of `show_prompt`, on an already-built map. -/
def show_prompt_loop (prompt_map : List (PyStr × PyStr)) (inputs : Nat → PyStr) :
    Except PyStr PyStr :=
  promptAttempts prompt_map inputs 0 MAX_PROMPTS

/-- Source `show_prompt` (lines 171-198): build the options and the map, then
run the retry loop; `none` propagates a failure of `build_options`. -/
def show_prompt (names : List PyStr) (abbreviation_type : Nat)
    (inputs : Nat → PyStr) : Option (Except PyStr PyStr) :=
  match build_options names abbreviation_type with
  | none => none
  | some (_word_part, prompt_map) => some (show_prompt_loop prompt_map inputs)

/-- The spec's description of the acronym strategy: the concatenation of each
space-split token's first character (meaningful when every token is
non-empty); used to compare `abbreviate_initial` against the spec's words. -/
def acronymOf (city : PyStr) : PyStr :=
  (splitOnSpace city).map (fun part => part.headI)

end Bikeshare

namespace Bikeshare

/-! ### Association-list (Python dict) lemmas -/

theorem mem_dset_or {V : Type} {d : List (PyStr × V)} {k : PyStr} {v : V}
    {p : PyStr × V} (h : p ∈ dset d k v) : p = (k, v) ∨ p ∈ d := by
  induction d with
  | nil => simpa [dset] using h
  | cons hd tl ih =>
    obtain ⟨k0, v0⟩ := hd
    by_cases hk : k0 = k
    · rw [dset, if_pos hk] at h
      rcases List.mem_cons.mp h with h1 | h1
      · exact Or.inl h1
      · exact Or.inr (List.mem_cons_of_mem _ h1)
    · rw [dset, if_neg hk] at h
      rcases List.mem_cons.mp h with h1 | h1
      · exact Or.inr (h1 ▸ List.mem_cons_self _ _)
      · rcases ih h1 with h2 | h2
        · exact Or.inl h2
        · exact Or.inr (List.mem_cons_of_mem _ h2)

theorem mem_dset_of_ne {V : Type} {d : List (PyStr × V)} {k : PyStr} {v : V}
    {p : PyStr × V} (h : p ∈ d) (hne : p.1 ≠ k) : p ∈ dset d k v := by
  induction d with
  | nil => simp at h
  | cons hd tl ih =>
    obtain ⟨k0, v0⟩ := hd
    by_cases hk : k0 = k
    · rw [dset, if_pos hk]
      rcases List.mem_cons.mp h with h1 | h1
      · exact absurd (by rw [h1] at hne ⊢; exact hk) hne
      · exact List.mem_cons_of_mem _ h1
    · rw [dset, if_neg hk]
      rcases List.mem_cons.mp h with h1 | h1
      · exact h1 ▸ List.mem_cons_self _ _
      · exact List.mem_cons_of_mem _ (ih h1)

theorem mem_of_mem_dset_ne {V : Type} {d : List (PyStr × V)} {k : PyStr} {v : V}
    {p : PyStr × V} (h : p ∈ dset d k v) (hne : p.1 ≠ k) : p ∈ d := by
  rcases mem_dset_or h with h1 | h1
  · exact absurd (by rw [h1]) hne
  · exact h1

theorem self_mem_dset {V : Type} {d : List (PyStr × V)} {k : PyStr} {v : V} :
    (k, v) ∈ dset d k v := by
  induction d with
  | nil => simp [dset]
  | cons hd tl ih =>
    obtain ⟨k0, v0⟩ := hd
    by_cases hk : k0 = k
    · rw [dset, if_pos hk]; exact List.mem_cons_self _ _
    · rw [dset, if_neg hk]; exact List.mem_cons_of_mem _ ih

theorem dget?_dset_self {V : Type} {d : List (PyStr × V)} {k : PyStr} {v : V} :
    dget? (dset d k v) k = some v := by
  induction d with
  | nil => simp [dset, dget?]
  | cons hd tl ih =>
    obtain ⟨k0, v0⟩ := hd
    by_cases hk : k0 = k
    · rw [dset, if_pos hk, dget?, if_pos rfl]
    · rw [dset, if_neg hk, dget?, if_neg hk]; exact ih

theorem dget?_dset_ne {V : Type} {d : List (PyStr × V)} {k k' : PyStr} {v : V}
    (hne : k' ≠ k) : dget? (dset d k v) k' = dget? d k' := by
  induction d with
  | nil =>
    simp only [dset, dget?]
    rw [if_neg (fun h => hne h.symm)]
  | cons hd tl ih =>
    obtain ⟨k0, v0⟩ := hd
    by_cases hk : k0 = k
    · rw [dset, if_pos hk, dget?, if_neg (fun h => hne h.symm), dget?,
        if_neg (fun h => hne (hk ▸ h).symm)]
    · rw [dset, if_neg hk]
      by_cases hk0 : k0 = k'
      · rw [dget?, if_pos hk0, dget?, if_pos hk0]
      · rw [dget?, if_neg hk0, dget?, if_neg hk0]; exact ih

theorem keys_dset_superset {V : Type} {d : List (PyStr × V)} {k k' : PyStr}
    {v : V} (h : k' ∈ d.map Prod.fst) : k' ∈ (dset d k v).map Prod.fst := by
  obtain ⟨p, hp, hp1⟩ := List.mem_map.mp h
  by_cases hpk : p.1 = k
  · exact List.mem_map.mpr ⟨(k, v), self_mem_dset, by rw [← hp1, hpk]⟩
  · exact List.mem_map.mpr ⟨p, mem_dset_of_ne hp hpk, hp1⟩

theorem key_mem_dset {V : Type} {d : List (PyStr × V)} {k : PyStr} {v : V} :
    k ∈ (dset d k v).map Prod.fst :=
  List.mem_map.mpr ⟨(k, v), self_mem_dset, rfl⟩

theorem keys_dset_or {V : Type} {d : List (PyStr × V)} {k k' : PyStr} {v : V}
    (h : k' ∈ (dset d k v).map Prod.fst) : k' = k ∨ k' ∈ d.map Prod.fst := by
  obtain ⟨p, hp, hp1⟩ := List.mem_map.mp h
  rcases mem_dset_or hp with h1 | h1
  · exact Or.inl (by rw [← hp1, h1])
  · exact Or.inr (List.mem_map.mpr ⟨p, h1, hp1⟩)

theorem nodup_keys_dset {V : Type} {d : List (PyStr × V)} {k : PyStr} {v : V}
    (h : (d.map Prod.fst).Nodup) : ((dset d k v).map Prod.fst).Nodup := by
  induction d with
  | nil => simp [dset]
  | cons hd tl ih =>
    obtain ⟨k0, v0⟩ := hd
    simp only [List.map_cons, List.nodup_cons] at h
    by_cases hk : k0 = k
    · rw [dset, if_pos hk]
      simp only [List.map_cons, List.nodup_cons]
      exact ⟨hk ▸ h.1, h.2⟩
    · rw [dset, if_neg hk]
      simp only [List.map_cons, List.nodup_cons]
      refine ⟨fun hmem => ?_, ih h.2⟩
      rcases keys_dset_or hmem with h1 | h1
      · exact hk h1
      · exact h.1 h1

theorem dget?_eq_some_mem {V : Type} {d : List (PyStr × V)} {k : PyStr} {v : V}
    (h : dget? d k = some v) : (k, v) ∈ d := by
  induction d with
  | nil => simp [dget?] at h
  | cons hd tl ih =>
    obtain ⟨k0, v0⟩ := hd
    by_cases hk : k0 = k
    · rw [dget?, if_pos hk] at h
      exact List.mem_cons.mpr (Or.inl (by rw [hk, (Option.some_inj.mp h)]))
    · rw [dget?, if_neg hk] at h
      exact List.mem_cons_of_mem _ (ih h)

theorem dget?_eq_none_iff {V : Type} {d : List (PyStr × V)} {k : PyStr} :
    dget? d k = none ↔ k ∉ d.map Prod.fst := by
  induction d with
  | nil => simp [dget?]
  | cons hd tl ih =>
    obtain ⟨k0, v0⟩ := hd
    by_cases hk : k0 = k
    · subst hk
      simp only [dget?, if_pos rfl, List.map_cons, List.mem_cons]
      exact ⟨fun h => Option.noConfusion h, fun h => absurd (Or.inl trivial) h⟩
    · rw [dget?, if_neg hk]
      simp only [List.map_cons, List.mem_cons]
      constructor
      · intro h hmem
        rcases hmem with h1 | h1
        · exact hk h1.symm
        · exact (ih.mp h) h1
      · intro h; exact ih.mpr (fun h1 => h (Or.inr h1))

theorem mem_dset_self_eq {V : Type} {d : List (PyStr × V)} {k : PyStr}
    {v w : V} (hnd : (d.map Prod.fst).Nodup) (h : (k, w) ∈ dset d k v) :
    w = v := by
  induction d with
  | nil => simp [dset] at h; exact h
  | cons hd tl ih =>
    obtain ⟨k0, v0⟩ := hd
    simp only [List.map_cons, List.nodup_cons] at hnd
    by_cases hk : k0 = k
    · rw [dset, if_pos hk] at h
      rcases List.mem_cons.mp h with h1 | h1
      · exact (Prod.mk.injEq _ _ _ _ ▸ h1).2
      · exact absurd (List.mem_map.mpr ⟨(k, w), h1, rfl⟩) (hk ▸ hnd.1)
    · rw [dset, if_neg hk] at h
      rcases List.mem_cons.mp h with h1 | h1
      · exact absurd ((Prod.mk.injEq _ _ _ _ ▸ h1).1.symm) hk
      · exact ih hnd.2 h1

theorem dget?_of_mem_nodup {V : Type} {d : List (PyStr × V)} {k : PyStr}
    {v : V} (hnd : (d.map Prod.fst).Nodup) (h : (k, v) ∈ d) :
    dget? d k = some v := by
  induction d with
  | nil => simp at h
  | cons hd tl ih =>
    obtain ⟨k0, v0⟩ := hd
    simp only [List.map_cons, List.nodup_cons] at hnd
    rcases List.mem_cons.mp h with h1 | h1
    · obtain ⟨h2, h3⟩ := Prod.mk.injEq _ _ _ _ ▸ h1
      rw [dget?, if_pos h2.symm, h3]
    · by_cases hk : k0 = k
      · exact absurd (List.mem_map.mpr ⟨(k, v), h1, rfl⟩) (hk ▸ hnd.1)
      · rw [dget?, if_neg hk]; exact ih hnd.2 h1

end Bikeshare

namespace Bikeshare

/-! ### Acronym-side lemmas -/

theorem initialsOf_eq_map : ∀ {parts : List PyStr},
    (∀ p ∈ parts, p ≠ []) →
    initialsOf parts = some (parts.map (fun p => p.headI))
  | [], _ => rfl
  | p :: rest, h => by
    have hp : p ≠ [] := h p (List.mem_cons_self _ _)
    obtain ⟨c, t, rfl⟩ : ∃ c t, p = c :: t := by
      cases p with
      | nil => exact absurd rfl hp
      | cons c t => exact ⟨c, t, rfl⟩
    have ih := initialsOf_eq_map (fun q hq => h q (List.mem_cons_of_mem _ hq))
    simp [initialsOf, ih]

theorem initialsOf_isSome_iff : ∀ (parts : List PyStr),
    (initialsOf parts).isSome = true ↔ ∀ p ∈ parts, p ≠ []
  | [] => by simp [initialsOf]
  | p :: rest => by
    have ih := initialsOf_isSome_iff rest
    cases hrest : initialsOf rest with
    | none =>
      have hbad : ¬ ∀ q ∈ rest, q ≠ [] := by
        rw [← ih, hrest]; simp
      cases p with
      | nil => simp [initialsOf, hrest]
      | cons c t =>
        simp only [initialsOf, hrest, List.head?]
        constructor
        · intro h; simp at h
        · intro h
          exact absurd (fun q hq => h q (List.mem_cons_of_mem _ hq)) hbad
    | some cs =>
      have hall : ∀ q ∈ rest, q ≠ [] := ih.mp (by rw [hrest]; rfl)
      cases p with
      | nil => simp [initialsOf, hrest]
      | cons c t =>
        simp only [initialsOf, hrest, List.head?, Option.isSome_some, true_iff]
        intro q hq
        rcases List.mem_cons.mp hq with h1 | h1
        · simp [h1]
        · exact hall q h1

theorem cityLoop_eq : ∀ (cities : List PyStr) (ab : List (PyStr × PyStr))
    (ps : List PyStr), (∀ c ∈ cities, ∀ p ∈ splitOnSpace c, p ≠ []) →
    cityLoop cities ab ps =
      some (ps ++ cities.map (fun c => fmtPrompt c (acronymOf c)),
        cities.foldl (fun d c => dset d (acronymOf c) c) ab)
  | [], ab, ps, _ => by simp [cityLoop]
  | c :: rest, ab, ps, h => by
    have hc : abbreviate_initial c = some (acronymOf c) := by
      rw [abbreviate_initial, initialsOf_eq_map (h c (List.mem_cons_self _ _))]
      rfl
    have ih := cityLoop_eq rest (dset ab (acronymOf c) c)
      (ps ++ [fmtPrompt c (acronymOf c)])
      (fun q hq => h q (List.mem_cons_of_mem _ hq))
    simp only [cityLoop, hc, ih, List.foldl_cons, List.map_cons]
    simp

theorem cityLoop_isSome : ∀ (cities : List PyStr) (ab : List (PyStr × PyStr))
    (ps : List PyStr), (cityLoop cities ab ps).isSome = true ↔
      ∀ c ∈ cities, (abbreviate_initial c).isSome = true
  | [], _, _ => by simp [cityLoop]
  | c :: rest, ab, ps => by
    cases hc : abbreviate_initial c with
    | none => simp [cityLoop, hc]
    | some a =>
      have ih := cityLoop_isSome rest (dset ab a c) (ps ++ [fmtPrompt c a])
      simp [cityLoop, hc, ih]

theorem generate_city_prompts_eq {cities : List PyStr}
    (h : ∀ c ∈ cities, ∀ p ∈ splitOnSpace c, p ≠ []) :
    generate_city_prompts cities =
      some (cities.map (fun c => fmtPrompt c (acronymOf c)),
        cities.foldl (fun d c => dset d (acronymOf c) c) []) := by
  rw [generate_city_prompts, cityLoop_eq cities [] [] h]
  simp

/-! ### Claim C4 and C9 theorems -/

/-- C4 (code_bug): the enumeration step of `build_options` must return the
enumeration string in both branches, but on a one-element list the source
assigns `city_part` instead of `options` and `return options` raises
`UnboundLocalError` — so `join_enumeration ["X"]` fails instead of returning
`"X"`, while the two-or-more branch behaves as specified; consequently even a
well-formed single-city `build_options` call fails. -/
theorem join_enumeration_single_bug :
    join_enumeration [pyStr "X"] = none
    ∧ join_enumeration [pyStr "A", pyStr "B"] = some (pyStr "A or B")
    ∧ join_enumeration [pyStr "A", pyStr "B", pyStr "C"] = some (pyStr "A, B or C")
    ∧ build_options [pyStr "Chicago"] ACRONYMN = none := by
  refine ⟨rfl, by decide, by decide, rfl⟩

/-- C9 (confirmed): `abbreviate_initial` (and hence `generate_city_prompts`)
succeeds exactly when every space-split token of every name is non-empty; an
empty name, or a leading, trailing or doubled space, produces an empty token
and the first-character access fails. -/
theorem abbreviate_initial_total_iff :
    (∀ city : PyStr, (abbreviate_initial city).isSome = true ↔
      ∀ part ∈ splitOnSpace city, part ≠ [])
    ∧ abbreviate_initial (pyStr "") = none
    ∧ abbreviate_initial (pyStr " a") = none
    ∧ abbreviate_initial (pyStr "a ") = none
    ∧ abbreviate_initial (pyStr "a  b") = none
    ∧ (∀ cities : List PyStr, (generate_city_prompts cities).isSome = true ↔
      ∀ city ∈ cities, ∀ part ∈ splitOnSpace city, part ≠ []) := by
  refine ⟨fun city => initialsOf_isSome_iff (splitOnSpace city), rfl, rfl, rfl,
    rfl, fun cities => ?_⟩
  rw [generate_city_prompts, cityLoop_isSome]
  constructor
  · intro h city hmem
    exact (initialsOf_isSome_iff (splitOnSpace city)).mp (h city hmem)
  · intro h city hmem
    exact (initialsOf_isSome_iff (splitOnSpace city)).mpr (h city hmem)

end Bikeshare

namespace Bikeshare

/-- The abbreviation dict built by the `generate_city_prompts` loop. -/
def cityFold (cities : List PyStr) (init : List (PyStr × PyStr)) :
    List (PyStr × PyStr) :=
  cities.foldl (fun d c => dset d (acronymOf c) c) init

theorem getLast?_mem_of_eq {α : Type} {l : List α} {x : α}
    (h : l.getLast? = some x) : x ∈ l := by
  obtain ⟨hne, hx⟩ := List.mem_getLast?_eq_getLast (by rw [h]; rfl)
  rw [hx]; exact List.getLast_mem hne

theorem dget?_cityFold : ∀ (cities : List PyStr)
    (init : List (PyStr × PyStr)) (k : PyStr),
    dget? (cityFold cities init) k =
      (match (cities.filter (fun c => decide (acronymOf c = k))).getLast? with
       | some c => some c
       | none => dget? init k)
  | [], init, k => rfl
  | c :: rest, init, k => by
    have ih := dget?_cityFold rest (dset init (acronymOf c) c) k
    have hstep : cityFold (c :: rest) init =
        cityFold rest (dset init (acronymOf c) c) := rfl
    by_cases hc : acronymOf c = k
    · have hfil : (c :: rest).filter (fun x => decide (acronymOf x = k)) =
          c :: rest.filter (fun x => decide (acronymOf x = k)) := by
        rw [List.filter_cons, if_pos (by simp [hc])]
      rw [hstep, ih, hfil]
      cases hr : rest.filter (fun x => decide (acronymOf x = k)) with
      | nil =>
        rw [← hc]
        exact dget?_dset_self
      | cons d l =>
        rw [List.getLast?_cons_cons]
        cases hg : (d :: l).getLast? with
        | none =>
          exact absurd (List.getLast?_isSome.mpr (List.cons_ne_nil d l))
            (by rw [hg]; simp)
        | some x => rfl
    · have hfil : (c :: rest).filter (fun x => decide (acronymOf x = k)) =
          rest.filter (fun x => decide (acronymOf x = k)) := by
        rw [List.filter_cons, if_neg (by simp [hc])]
      rw [hstep, ih, hfil]
      cases hr : rest.filter (fun x => decide (acronymOf x = k)) with
      | nil => exact dget?_dset_ne (fun h => hc h.symm)
      | cons d l => rfl

theorem nodup_keys_cityFold : ∀ (cities : List PyStr)
    (init : List (PyStr × PyStr)), (init.map Prod.fst).Nodup →
    ((cityFold cities init).map Prod.fst).Nodup
  | [], _, h => h
  | _ :: rest, _, h => nodup_keys_cityFold rest _ (nodup_keys_dset h)

theorem cityFold_entry {cities : List PyStr} {p : PyStr × PyStr}
    (hp : p ∈ cityFold cities []) :
    (cities.filter (fun c => decide (acronymOf c = p.1))).getLast? = some p.2 := by
  have hnd := nodup_keys_cityFold cities [] (by simp)
  have hget : dget? (cityFold cities []) p.1 = some p.2 :=
    dget?_of_mem_nodup hnd (by rw [Prod.mk.eta]; exact hp)
  rw [dget?_cityFold] at hget
  cases hg : (cities.filter (fun c => decide (acronymOf c = p.1))).getLast? with
  | none => rw [hg] at hget; exact absurd hget (by simp [dget?])
  | some x => rw [hg] at hget; exact hget

/-! ### Claim C6 and C7 theorems -/

/-- C6 (confirmed): `generate_city_prompts` gives every name the abbreviation
made of the first character of each space-split token, preserving case, with
display string `"<Name> [<Abbreviation>]"` (stated under the claim's implicit
precondition that each token has a first character); on
`["Chicago","New York City","Washington"]` the map and the joined prompt text
are exactly as the spec's scenario states. -/
theorem generate_city_prompts_initials :
    (∀ cities : List PyStr, (∀ c ∈ cities, ∀ p ∈ splitOnSpace c, p ≠ []) →
      generate_city_prompts cities =
        some (cities.map (fun c => fmtPrompt c (acronymOf c)), cityFold cities []))
    ∧ generate_city_prompts
        [pyStr "Chicago", pyStr "New York City", pyStr "Washington"] =
      some ([pyStr "Chicago [C]", pyStr "New York City [NYC]", pyStr "Washington [W]"],
        [(pyStr "C", pyStr "Chicago"), (pyStr "NYC", pyStr "New York City"),
         (pyStr "W", pyStr "Washington")])
    ∧ build_options [pyStr "Chicago", pyStr "New York City", pyStr "Washington"]
        ACRONYMN =
      some (pyStr "Chicago [C], New York City [NYC] or Washington [W]",
        [(pyStr "C", pyStr "Chicago"), (pyStr "NYC", pyStr "New York City"),
         (pyStr "W", pyStr "Washington")]) := by
  refine ⟨fun cities h => ?_, by decide, by decide⟩
  rw [generate_city_prompts_eq h]
  rfl

/-- Witness for C6: the general statement applied to the one-city list
`["month"]`, with its hypothesis discharged by evaluation. -/
theorem generate_city_prompts_initials_witness :
    (∀ c ∈ [pyStr "month"], ∀ p ∈ splitOnSpace c, p ≠ [])
    ∧ generate_city_prompts [pyStr "month"] =
      some ([pyStr "month [m]"], [(pyStr "m", pyStr "month")]) := by
  refine ⟨by decide, ?_⟩
  rw [generate_city_prompts_initials.1 [pyStr "month"] (by decide)]
  rfl

/-- C7 (confirmed): when two distinct names at positions `i < j` share the
same initials, `generate_city_prompts` raises no error: the call still
succeeds, the later name wins the shared key, the earlier name appears as the
value of no map entry, and both names keep their entries in the prompt
list. -/
theorem generate_city_prompts_collision :
    ∀ (cities : List PyStr) (i j : Nat) (hi : i < cities.length)
      (hj : j < cities.length), i < j →
      (∀ c ∈ cities, ∀ p ∈ splitOnSpace c, p ≠ []) →
      cities.Nodup →
      acronymOf (cities.get ⟨i, hi⟩) = acronymOf (cities.get ⟨j, hj⟩) →
      ∃ ps abbrs, generate_city_prompts cities = some (ps, abbrs)
        ∧ ps = cities.map (fun c => fmtPrompt c (acronymOf c))
        ∧ (∀ p ∈ abbrs, p.2 ≠ cities.get ⟨i, hi⟩)
        ∧ fmtPrompt (cities.get ⟨i, hi⟩) (acronymOf (cities.get ⟨i, hi⟩)) ∈ ps
        ∧ fmtPrompt (cities.get ⟨j, hj⟩) (acronymOf (cities.get ⟨j, hj⟩)) ∈ ps := by
  intro cities i j hi hj hij htok hnd hsame
  have hgcp := generate_city_prompts_eq htok
  refine ⟨_, _, hgcp, rfl, ?_,
    List.mem_map.mpr ⟨_, List.get_mem cities i hi, rfl⟩,
    List.mem_map.mpr ⟨_, List.get_mem cities j hj, rfl⟩⟩
  intro p hp heq
  have hlast := cityFold_entry (show p ∈ cityFold cities [] from hp)
  rw [heq] at hlast
  have hmemf := getLast?_mem_of_eq hlast
  have hpred : acronymOf (cities.get ⟨i, hi⟩) = p.1 :=
    of_decide_eq_true (List.mem_filter.mp hmemf).2
  have h1 : cities.take i ++ cities.drop i = cities := List.take_append_drop i cities
  have h2 : cities.drop i = cities.get ⟨i, hi⟩ :: cities.drop (i + 1) := by
    rw [List.drop_eq_getElem_cons hi]
    rfl
  have hjmem : cities.get ⟨j, hj⟩ ∈ cities.drop (i + 1) := by
    have hq := List.getElem?_drop cities (i + 1) (j - (i + 1))
    rw [show i + 1 + (j - (i + 1)) = j by omega, List.getElem?_eq_getElem hj] at hq
    exact List.getElem?_mem hq
  have hnotmem : cities.get ⟨i, hi⟩ ∉ cities.drop (i + 1) := by
    have hdnd : (cities.drop i).Nodup := List.Nodup.sublist (List.drop_sublist i cities) hnd
    rw [h2] at hdnd
    exact (List.nodup_cons.mp hdnd).1
  have hpredj : decide (acronymOf (cities.get ⟨j, hj⟩) = p.1) = true :=
    decide_eq_true (hsame ▸ hpred)
  have hfsplit : cities.filter (fun c => decide (acronymOf c = p.1)) =
      (cities.take i).filter (fun c => decide (acronymOf c = p.1))
        ++ cities.get ⟨i, hi⟩ ::
          (cities.drop (i + 1)).filter (fun c => decide (acronymOf c = p.1)) := by
    conv_lhs => rw [← h1, h2]
    rw [List.filter_append, List.filter_cons, if_pos (decide_eq_true hpred)]
  rw [hfsplit, List.getLast?_append_cons] at hlast
  cases hfd : (cities.drop (i + 1)).filter (fun c => decide (acronymOf c = p.1)) with
  | nil =>
    have : cities.get ⟨j, hj⟩ ∈
        (cities.drop (i + 1)).filter (fun c => decide (acronymOf c = p.1)) :=
      List.mem_filter.mpr ⟨hjmem, hpredj⟩
    rw [hfd] at this
    exact absurd this (List.not_mem_nil _)
  | cons d l =>
    rw [hfd, List.getLast?_cons_cons] at hlast
    have hmem2 := getLast?_mem_of_eq hlast
    rw [← hfd] at hmem2
    exact hnotmem (List.mem_filter.mp hmem2).1

/-- Witness for C7: the collision theorem applied to `["ax","ay"]` (same
initial `a`), with all hypotheses discharged by evaluation. -/
theorem generate_city_prompts_collision_witness :
    ∃ ps abbrs, generate_city_prompts [pyStr "ax", pyStr "ay"] = some (ps, abbrs)
      ∧ (∀ p ∈ abbrs, p.2 ≠ pyStr "ax") := by
  obtain ⟨ps, abbrs, hg, _, habs, _, _⟩ :=
    generate_city_prompts_collision [pyStr "ax", pyStr "ay"] 0 1
      (by decide) (by decide) (by decide) (by decide) (by decide) (by decide)
  exact ⟨ps, abbrs, hg, fun p hp => habs p hp⟩

end Bikeshare

namespace Bikeshare

/-! ### Prompt-building lemmas for generate_name_prompts -/

theorem promptsFor_shape : ∀ (names : List PyStr)
    (amap : List (PyStr × PyStr)) (ps : List PyStr),
    promptsFor names amap = some ps →
    ps.length = names.length ∧
    ∀ i (h1 : i < names.length) (h2 : i < ps.length),
      ∃ k, dget? amap (names.get ⟨i, h1⟩) = some k ∧
        ps.get ⟨i, h2⟩ = fmtPrompt (names.get ⟨i, h1⟩) k
  | [], amap, ps, h => by
    obtain rfl : ([] : List PyStr) = ps := Option.some_inj.mp h
    exact ⟨rfl, fun i h1 h2 => absurd h1 (by simp)⟩
  | name :: rest, amap, ps, h => by
    rw [promptsFor] at h
    cases hk : dget? amap name with
    | none => rw [hk] at h; exact absurd h (by simp)
    | some k =>
      rw [hk] at h
      cases hr : promptsFor rest amap with
      | none => rw [hr] at h; exact absurd h (by simp)
      | some ps' =>
        rw [hr] at h
        obtain rfl : fmtPrompt name k :: ps' = ps := Option.some_inj.mp h
        obtain ⟨ihlen, ihget⟩ := promptsFor_shape rest amap ps' hr
        refine ⟨by simp [ihlen], fun i h1 h2 => ?_⟩
        cases i with
        | zero => exact ⟨k, hk, rfl⟩
        | succ n =>
          exact ihget n (by simpa using h1) (by simpa using h2)

theorem foldl_invert_lookup : ∀ (ab : List (PyStr × PyStr))
    (init : List (PyStr × PyStr)) (v k : PyStr),
    dget? (ab.foldl (fun m p => dset m p.2 p.1) init) v = some k →
    (k, v) ∈ ab ∨ dget? init v = some k
  | [], _, _, _, h => Or.inr h
  | q :: rest, init, v, k, h => by
    rcases foldl_invert_lookup rest (dset init q.2 q.1) v k h with h1 | h1
    · exact Or.inl (List.mem_cons_of_mem _ h1)
    · by_cases hv : v = q.2
      · subst hv
        rw [dget?_dset_self] at h1
        have hk : q.1 = k := Option.some_inj.mp h1
        exact Or.inl (List.mem_cons.mpr (Or.inl (by rw [← hk, Prod.mk.eta])))
      · rw [dget?_dset_ne hv] at h1
        exact Or.inr h1

theorem invertMap_mem {ab : List (PyStr × PyStr)} {v k : PyStr}
    (h : dget? (invertMap ab) v = some k) : (k, v) ∈ ab := by
  rcases foldl_invert_lookup ab [] v k h with h1 | h1
  · exact h1
  · exact absurd h1 (by simp [dget?])

theorem mem_surviving {pa : PotDict} {k v : PyStr} :
    (k, v) ∈ surviving pa ↔ (k, some v) ∈ pa := by
  induction pa with
  | nil => simp [surviving]
  | cons p rest ih =>
    obtain ⟨pk, pv⟩ := p
    cases pv with
    | none =>
      simp only [surviving, List.filterMap_cons] at ih ⊢
      simp only [List.mem_cons, ih]
      constructor
      · intro h; exact Or.inr h
      · rintro (h | h)
        · exact absurd (Prod.mk.injEq _ _ _ _ ▸ h).2 (by simp)
        · exact h
    | some w =>
      simp only [surviving, List.filterMap_cons] at ih ⊢
      simp only [List.mem_cons, ih, Prod.mk.injEq, Option.some_inj]

/-! ### Claim C8 and C3 theorems -/

/-- C8 (confirmed): whenever `generate_name_prompts` returns normally, the
prompt list has exactly one entry per input name, in input order, and every
input name is the value of some entry of the returned map; and the plain
overwrite performed when a displaced name is re-registered can silently erase
a third name's only entry, in which case the final lookup fails (returns a
`KeyError`, modelled `none`) rather than yielding a partial result — as on
`["n1","no1","not a name","nonexistent","nonsense"]`, where re-registering
`"nonexistent"` at key `"none"` erases the entry of `"not a name"`. -/
theorem name_prompts_success_shape :
    (∀ (names ps : List PyStr) (abbrs : List (PyStr × PyStr)),
      generate_name_prompts names = some (ps, abbrs) →
      ps.length = names.length ∧
      (∀ i (h1 : i < names.length) (h2 : i < ps.length), ∃ k,
        (k, names.get ⟨i, h1⟩) ∈ abbrs ∧
        ps.get ⟨i, h2⟩ = fmtPrompt (names.get ⟨i, h1⟩) k) ∧
      (∀ nm ∈ names, ∃ k, (k, nm) ∈ abbrs))
    ∧ generate_name_prompts [pyStr "n1", pyStr "no1", pyStr "not a name",
        pyStr "nonexistent", pyStr "nonsense"] = none
    ∧ dget? (buildPotential [pyStr "n1", pyStr "no1", pyStr "not a name",
        pyStr "nonexistent", pyStr "nonsense"] []) noneKey =
      some (some (pyStr "nonexistent")) := by
  refine ⟨fun names ps abbrs h => ?_, by decide, by decide⟩
  rw [generate_name_prompts] at h
  cases hpf : promptsFor names (invertMap (surviving (buildPotential names []))) with
  | none => rw [hpf] at h; exact absurd h (by simp)
  | some ps' =>
    rw [hpf] at h
    obtain ⟨rfl, rfl⟩ : ps' = ps ∧ surviving (buildPotential names []) = abbrs := by
      have := Option.some_inj.mp h
      exact ⟨(Prod.mk.injEq _ _ _ _ ▸ this).1, (Prod.mk.injEq _ _ _ _ ▸ this).2⟩
    obtain ⟨hlen, hget⟩ := promptsFor_shape names _ _ hpf
    refine ⟨hlen, fun i h1 h2 => ?_, fun nm hnm => ?_⟩
    · obtain ⟨k, hk, hfmt⟩ := hget i h1 h2
      exact ⟨k, invertMap_mem hk, hfmt⟩
    · obtain ⟨⟨i, h1⟩, rfl⟩ := List.mem_iff_get.mp hnm
      obtain ⟨k, hk, _⟩ := hget i h1 (by rw [hlen]; exact h1)
      exact ⟨k, invertMap_mem hk⟩

/-- Witness for C8: the success-shape statement applied to `["month","day"]`,
whose run returns normally. -/
theorem name_prompts_success_shape_witness :
    generate_name_prompts [pyStr "month", pyStr "day"] =
      some ([pyStr "month [m]", pyStr "day [d]"],
        [(pyStr "m", pyStr "month"), (pyStr "d", pyStr "day")])
    ∧ ∀ nm ∈ [pyStr "month", pyStr "day"], ∃ k,
        (k, nm) ∈ [(pyStr "m", pyStr "month"), (pyStr "d", pyStr "day")] := by
  have hg : generate_name_prompts [pyStr "month", pyStr "day"] =
      some ([pyStr "month [m]", pyStr "day [d]"],
        [(pyStr "m", pyStr "month"), (pyStr "d", pyStr "day")]) := by decide
  exact ⟨hg, (name_prompts_success_shape.1 _ _ _ hg).2.2⟩

/-- C3 (corrected): when a name containing `"not"` is processed it is
immediately written to the fixed key `"none"` (and a name containing `"all"`
but not `"not"` to the fixed key `"all"`), skipping both the general prefix
algorithm and the other catch-all check; but "is mapped" holds only at
processing time: a later name triggering the same catch-all overwrites the
key, so the earlier such name loses its mapping (see the counterexample). -/
theorem catch_all_branch :
    ∀ (pa : PotDict) (nm : PyStr) (rest : List PyStr),
      (containsSub nm notSub = true →
        buildPotential (nm :: rest) pa =
          buildPotential rest (dset pa noneKey (some nm))
        ∧ dget? (dset pa noneKey (some nm)) noneKey = some (some nm))
      ∧ (containsSub nm notSub = false → containsSub nm allSub = true →
        buildPotential (nm :: rest) pa =
          buildPotential rest (dset pa allKey (some nm))
        ∧ dget? (dset pa allKey (some nm)) allKey = some (some nm))
      ∧ (containsSub nm notSub = false → containsSub nm allSub = false →
        buildPotential (nm :: rest) pa =
          buildPotential rest (prefixSearch nm (List.range' 1 nm.length) pa)) := by
  intro pa nm rest
  refine ⟨fun h1 => ⟨?_, dget?_dset_self⟩, fun h1 h2 => ⟨?_, dget?_dset_self⟩,
    fun h1 h2 => ?_⟩
  · rw [buildPotential, if_pos h1]
  · rw [buildPotential, if_neg (by simp [h1]), if_pos h2]
  · rw [buildPotential, if_neg (by simp [h1]), if_neg (by simp [h2])]

/-- Counterexample for C3: both `"nota"` and `"notb"` contain `"not"`, but
after the run only `"notb"` is mapped to key `"none"`; `"nota"` has lost its
mapping and the whole call fails with a `KeyError` (modelled `none`) — so a
name containing `"not"` is not always mapped to `"none"`. -/
theorem catch_all_overwrite_cex :
    containsSub (pyStr "nota") notSub = true
    ∧ containsSub (pyStr "notb") notSub = true
    ∧ buildPotential [pyStr "nota", pyStr "notb"] [] =
      [(noneKey, some (pyStr "notb"))]
    ∧ generate_name_prompts [pyStr "nota", pyStr "notb"] = none := by decide

/-- Witness for C3: the branch statement applied to `"not at all"` (which
contains both `"not"` and `"all"`, exercising the precedence of the `"not"`
check). -/
theorem catch_all_branch_witness :
    buildPotential [pyStr "not at all"] [] =
      buildPotential [] (dset [] noneKey (some (pyStr "not at all")))
    ∧ dget? (dset [] noneKey (some (pyStr "not at all"))) noneKey =
      some (some (pyStr "not at all")) :=
  (catch_all_branch [] (pyStr "not at all") []).1 (by decide)

end Bikeshare

namespace Bikeshare

/-! ### Selection-loop lemmas -/

theorem matchAttempt_isSome_iff : ∀ (pm : List (PyStr × PyStr)) (raw : PyStr),
    (matchAttempt pm raw).isSome = true ↔
      ∃ p ∈ pm, pyLower raw = pyLower p.1 ∨ pyLower raw = pyLower p.2
  | [], raw => by simp [matchAttempt]
  | (key, value) :: rest, raw => by
    have ih := matchAttempt_isSome_iff rest raw
    by_cases hc : pyLower raw = pyLower key ∨ pyLower raw = pyLower value
    · rw [matchAttempt, if_pos hc]
      simp only [Option.isSome_some, true_iff]
      exact ⟨(key, value), List.mem_cons_self _ _, hc⟩
    · rw [matchAttempt, if_neg hc]
      rw [ih]
      constructor
      · rintro ⟨p, hp, hlow⟩
        exact ⟨p, List.mem_cons_of_mem _ hp, hlow⟩
      · rintro ⟨p, hp, hlow⟩
        rcases List.mem_cons.mp hp with rfl | h1
        · exact absurd hlow hc
        · exact ⟨p, h1, hlow⟩

theorem matchAttempt_mem : ∀ {pm : List (PyStr × PyStr)} {raw v : PyStr},
    matchAttempt pm raw = some v →
    ∃ k, (k, v) ∈ pm ∧ (pyLower raw = pyLower k ∨ pyLower raw = pyLower v)
  | [], raw, v, h => by simp [matchAttempt] at h
  | (key, value) :: rest, raw, v, h => by
    by_cases hc : pyLower raw = pyLower key ∨ pyLower raw = pyLower value
    · rw [matchAttempt, if_pos hc] at h
      obtain rfl : value = v := Option.some_inj.mp h
      exact ⟨key, List.mem_cons_self _ _, hc⟩
    · rw [matchAttempt, if_neg hc] at h
      obtain ⟨k, hk, hlow⟩ := matchAttempt_mem h
      exact ⟨k, List.mem_cons_of_mem _ hk, hlow⟩

theorem promptAttempts_succ (pm : List (PyStr × PyStr)) (inputs : Nat → PyStr)
    (idx r : Nat) :
    promptAttempts pm inputs idx (r + 1) =
      match matchAttempt pm (inputs idx) with
      | some selected => Except.ok selected
      | none => promptAttempts pm inputs (idx + 1) r := rfl

theorem promptAttempts_zero (pm : List (PyStr × PyStr)) (inputs : Nat → PyStr)
    (idx : Nat) :
    promptAttempts pm inputs idx 0 = Except.error (invalidPayload (inputs 2)) := rfl

theorem promptAttempts_ok_cases (pm : List (PyStr × PyStr))
    (inputs : Nat → PyStr) :
    ∀ v, show_prompt_loop pm inputs = Except.ok v →
      ∃ i, i < MAX_PROMPTS ∧ matchAttempt pm (inputs i) = some v ∧
        ∀ j, j < i → matchAttempt pm (inputs j) = none := by
  intro v h
  rw [show show_prompt_loop pm inputs = promptAttempts pm inputs 0 3 from rfl,
    promptAttempts_succ] at h
  cases h0 : matchAttempt pm (inputs 0) with
  | some w =>
    rw [h0] at h
    obtain rfl : w = v := by simpa using h
    exact ⟨0, by simp [MAX_PROMPTS], h0, fun j hj => absurd hj (by omega)⟩
  | none =>
    rw [h0, promptAttempts_succ] at h
    cases h1 : matchAttempt pm (inputs 1) with
    | some w =>
      rw [h1] at h
      obtain rfl : w = v := by simpa using h
      refine ⟨1, by simp [MAX_PROMPTS], h1, fun j hj => ?_⟩
      obtain rfl : j = 0 := by omega
      exact h0
    | none =>
      rw [h1, promptAttempts_succ] at h
      cases h2 : matchAttempt pm (inputs 2) with
      | some w =>
        rw [h2] at h
        obtain rfl : w = v := by simpa using h
        refine ⟨2, by simp [MAX_PROMPTS], h2, fun j hj => ?_⟩
        rcases j with _ | _ | _ | j
        · exact h0
        · exact h1
        · exact absurd hj (by omega)
        · exact absurd hj (by omega)
      | none =>
        rw [h2, promptAttempts_zero] at h
        exact absurd h (by simp)

theorem promptAttempts_error_all_none (pm : List (PyStr × PyStr))
    (inputs : Nat → PyStr)
    (hall : ∀ i, i < MAX_PROMPTS → matchAttempt pm (inputs i) = none) :
    show_prompt_loop pm inputs = Except.error (invalidPayload (inputs 2)) := by
  rw [show show_prompt_loop pm inputs = promptAttempts pm inputs 0 3 from rfl,
    promptAttempts_succ, hall 0 (by simp [MAX_PROMPTS])]
  show promptAttempts pm inputs 1 2 = _
  rw [promptAttempts_succ, hall 1 (by simp [MAX_PROMPTS])]
  show promptAttempts pm inputs 2 1 = _
  rw [promptAttempts_succ, hall 2 (by simp [MAX_PROMPTS])]
  show promptAttempts pm inputs 3 0 = _
  rw [promptAttempts_zero]

theorem promptAttempts_ok_of_first (pm : List (PyStr × PyStr))
    (inputs : Nat → PyStr) :
    ∀ i v, i < MAX_PROMPTS → matchAttempt pm (inputs i) = some v →
      (∀ j, j < i → matchAttempt pm (inputs j) = none) →
      show_prompt_loop pm inputs = Except.ok v := by
  intro i v hi hm hprev
  rw [show show_prompt_loop pm inputs = promptAttempts pm inputs 0 3 from rfl]
  rcases i with _ | _ | _ | i
  · rw [promptAttempts_succ, hm]
  · rw [promptAttempts_succ, hprev 0 (by omega)]
    show promptAttempts pm inputs 1 2 = _
    rw [promptAttempts_succ, hm]
  · rw [promptAttempts_succ, hprev 0 (by omega)]
    show promptAttempts pm inputs 1 2 = _
    rw [promptAttempts_succ, hprev 1 (by omega)]
    show promptAttempts pm inputs 2 1 = _
    rw [promptAttempts_succ, hm]
  · exact absurd hi (by rw [show MAX_PROMPTS = 3 from rfl]; omega)

theorem promptAttempts_congr (pm : List (PyStr × PyStr))
    (inputs : Nat → PyStr) :
    ∀ inputs2 : Nat → PyStr, (∀ i, i < MAX_PROMPTS → inputs i = inputs2 i) →
      show_prompt_loop pm inputs = show_prompt_loop pm inputs2 := by
  intro inputs2 hagree
  have e0 := hagree 0 (by simp [MAX_PROMPTS])
  have e1 := hagree 1 (by simp [MAX_PROMPTS])
  have e2 := hagree 2 (by simp [MAX_PROMPTS])
  rw [show show_prompt_loop pm inputs = promptAttempts pm inputs 0 3 from rfl,
    show show_prompt_loop pm inputs2 = promptAttempts pm inputs2 0 3 from rfl]
  rw [promptAttempts_succ, promptAttempts_succ pm inputs2, ← e0]
  cases h0 : matchAttempt pm (inputs 0) with
  | some w => rfl
  | none =>
    show promptAttempts pm inputs 1 2 = promptAttempts pm inputs2 1 2
    rw [promptAttempts_succ, promptAttempts_succ pm inputs2, ← e1]
    cases h1 : matchAttempt pm (inputs 1) with
    | some w => rfl
    | none =>
      show promptAttempts pm inputs 2 1 = promptAttempts pm inputs2 2 1
      rw [promptAttempts_succ, promptAttempts_succ pm inputs2, ← e2]
      cases h2 : matchAttempt pm (inputs 2) with
      | some w => rfl
      | none =>
        show promptAttempts pm inputs 3 0 = promptAttempts pm inputs2 3 0
        rw [promptAttempts_zero, promptAttempts_zero, e2]

/-! ### Claim C5 and C10 theorems -/

/-- C5 (confirmed): the retry loop reads at most `MAX_PROMPTS = 3` input
lines (its result depends only on the first 3 inputs); it returns the mapped
name of the first matching attempt, where an input matches exactly when its
lowercase form equals the lowercase of some map key or map value; it fails
only when all 3 attempts are non-matching, and then the error payload is the
final raw input, with the blank input represented by the explicit `''`
marker (`invalidPayload`). -/
theorem show_prompt_attempts :
    ∀ (pm : List (PyStr × PyStr)) (inputs : Nat → PyStr),
      (∀ v, show_prompt_loop pm inputs = Except.ok v →
        ∃ i, i < MAX_PROMPTS ∧ matchAttempt pm (inputs i) = some v ∧
          ∀ j, j < i → matchAttempt pm (inputs j) = none)
      ∧ ((∀ i, i < MAX_PROMPTS → matchAttempt pm (inputs i) = none) →
        show_prompt_loop pm inputs = Except.error (invalidPayload (inputs 2)))
      ∧ (∀ i v, i < MAX_PROMPTS → matchAttempt pm (inputs i) = some v →
        (∀ j, j < i → matchAttempt pm (inputs j) = none) →
        show_prompt_loop pm inputs = Except.ok v)
      ∧ (∀ inputs2 : Nat → PyStr, (∀ i, i < MAX_PROMPTS → inputs i = inputs2 i) →
        show_prompt_loop pm inputs = show_prompt_loop pm inputs2)
      ∧ (∀ raw, (matchAttempt pm raw).isSome = true ↔
        ∃ p ∈ pm, pyLower raw = pyLower p.1 ∨ pyLower raw = pyLower p.2)
      ∧ (∀ raw v, matchAttempt pm raw = some v →
        ∃ k, (k, v) ∈ pm ∧ (pyLower raw = pyLower k ∨ pyLower raw = pyLower v)) :=
  fun pm inputs =>
    ⟨promptAttempts_ok_cases pm inputs,
     promptAttempts_error_all_none pm inputs,
     promptAttempts_ok_of_first pm inputs,
     promptAttempts_congr pm inputs,
     matchAttempt_isSome_iff pm,
     fun _ _ h => matchAttempt_mem h⟩

/-- Witness for C5: on the map `{"c": "chicago"}` with every input `"zz"`,
all three attempts fail to match and the loop fails carrying the final raw
input `"zz"`. -/
theorem show_prompt_attempts_witness :
    show_prompt_loop [(pyStr "c", pyStr "chicago")] (fun _ => pyStr "zz") =
      Except.error (pyStr "zz") :=
  (show_prompt_attempts [(pyStr "c", pyStr "chicago")]
    (fun _ => pyStr "zz")).2.1 (fun _ _ => rfl)

/-- C10 (confirmed): whenever `show_prompt` returns normally, the returned
string is one of the values of the abbreviation map built from the supplied
names — the raw user input only selects and is never itself returned. -/
theorem show_prompt_result_canonical :
    ∀ (names : List PyStr) (abbreviation_type : Nat) (inputs : Nat → PyStr)
      (v : PyStr),
      show_prompt names abbreviation_type inputs = some (Except.ok v) →
      ∃ word_part pm, build_options names abbreviation_type = some (word_part, pm)
        ∧ v ∈ pm.map Prod.snd := by
  intro names t inputs v h
  rw [show_prompt] at h
  cases hb : build_options names t with
  | none => rw [hb] at h; exact absurd h (by simp)
  | some p =>
    obtain ⟨wp, pm⟩ := p
    rw [hb] at h
    have hloop : show_prompt_loop pm inputs = Except.ok v := Option.some_inj.mp h
    obtain ⟨i, _, hm, _⟩ := promptAttempts_ok_cases pm inputs v hloop
    obtain ⟨k, hk, _⟩ := matchAttempt_mem hm
    exact ⟨wp, pm, rfl, List.mem_map.mpr ⟨(k, v), hk, rfl⟩⟩

/-- Witness for C10: typing `"c"` against the three-city prompt resolves to
the canonical name `"Chicago"`, a value of the built map. -/
theorem show_prompt_result_canonical_witness :
    ∃ word_part pm,
      build_options [pyStr "Chicago", pyStr "New York City", pyStr "Washington"]
        ACRONYMN = some (word_part, pm)
      ∧ pyStr "Chicago" ∈ pm.map Prod.snd :=
  show_prompt_result_canonical
    [pyStr "Chicago", pyStr "New York City", pyStr "Washington"] ACRONYMN
    (fun _ => pyStr "c") (pyStr "Chicago") rfl

end Bikeshare

namespace Bikeshare

/-! ### Invariants of the minimal-prefix search -/

theorem prefixSearch_cons_free {name : PyStr} {length : Nat} {rest : List Nat}
    {pa : PotDict} (h : dget? pa (name.take length) = none) :
    prefixSearch name (length :: rest) pa =
      dset pa (name.take length) (some name) := by
  simp only [prefixSearch, h]

theorem prefixSearch_cons_tomb {name : PyStr} {length : Nat} {rest : List Nat}
    {pa : PotDict} (h : dget? pa (name.take length) = some none) :
    prefixSearch name (length :: rest) pa = prefixSearch name rest pa := by
  simp only [prefixSearch, h]

theorem prefixSearch_cons_clash {name : PyStr} {length : Nat} {rest : List Nat}
    {pa : PotDict} {prev : PyStr}
    (h : dget? pa (name.take length) = some (some prev)) :
    prefixSearch name (length :: rest) pa =
      prefixSearch name rest
        (dset (dset pa (name.take length) none)
          (prev.take (length + 1)) (some prev)) := by
  simp only [prefixSearch, h]

theorem take_len_take (s : PyStr) (m : Nat) :
    s.take ((s.take m).length) = s.take m := by
  rw [List.length_take, List.take_eq_take]
  omega

/-- The invariant of the potential-abbreviation dict maintained by the
prefix-search loop when no catch-all fires: keys are unique; every live entry
has a non-empty key that is a left-slice of its name, a name already
processed, with all strictly shorter slices present as (possibly tombstoned)
keys; and no name owns two live entries. -/
structure PotInv (pa : PotDict) (processed : List PyStr) : Prop where
  nodupKeys : (pa.map Prod.fst).Nodup
  entryNe : ∀ k n, (k, some n) ∈ pa → k ≠ []
  entrySlice : ∀ k n, (k, some n) ∈ pa → k = n.take k.length
  entryProc : ∀ k n, (k, some n) ∈ pa → n ∈ processed
  entryMin : ∀ k n, (k, some n) ∈ pa → ∀ l, 1 ≤ l → l < k.length →
    n.take l ∈ pa.map Prod.fst
  valUnique : ∀ k1 k2 n, (k1, some n) ∈ pa → (k2, some n) ∈ pa → k1 = k2

theorem potInv_nil : PotInv [] [] := by
  constructor <;> simp

theorem potInv_mono {pa : PotDict} {processed processed2 : List PyStr}
    (h : PotInv pa processed) (hsub : ∀ x ∈ processed, x ∈ processed2) :
    PotInv pa processed2 :=
  ⟨h.nodupKeys, h.entryNe, h.entrySlice,
   fun k n hkn => hsub n (h.entryProc k n hkn), h.entryMin, h.valUnique⟩

theorem prefixSearch_live_sub (name : PyStr) : ∀ (lengths : List Nat)
    (pa : PotDict) (n k : PyStr),
    (k, some n) ∈ prefixSearch name lengths pa →
    n = name ∨ ∃ k2, (k2, some n) ∈ pa
  | [], pa, n, k, h => Or.inr ⟨k, h⟩
  | length :: rest, pa, n, k, h => by
    cases hd : dget? pa (name.take length) with
    | none =>
      rw [prefixSearch_cons_free hd] at h
      rcases mem_dset_or h with heq | hmem
      · exact Or.inl (by
          have := (Prod.mk.injEq _ _ _ _ ▸ heq).2
          exact (Option.some_inj.mp this).symm ▸ rfl)
      · exact Or.inr ⟨k, hmem⟩
    | some val =>
      cases val with
      | none =>
        rw [prefixSearch_cons_tomb hd] at h
        exact prefixSearch_live_sub name rest pa n k h
      | some prev =>
        rw [prefixSearch_cons_clash hd] at h
        rcases prefixSearch_live_sub name rest _ n k h with h1 | ⟨k2, h2⟩
        · exact Or.inl h1
        · rcases mem_dset_or h2 with heq | hmem
          · have hn : n = prev := by
              have := (Prod.mk.injEq _ _ _ _ ▸ heq).2
              exact Option.some_inj.mp this
            exact Or.inr ⟨name.take length, hn ▸ dget?_eq_some_mem hd⟩
          · rcases mem_dset_or hmem with heq2 | hmem2
            · exact absurd (Prod.mk.injEq _ _ _ _ ▸ heq2).2 (by simp)
            · exact Or.inr ⟨k2, hmem2⟩

theorem prefixSearch_keys_mono (name : PyStr) : ∀ (lengths : List Nat)
    (pa : PotDict) (k : PyStr),
    k ∈ pa.map Prod.fst → k ∈ (prefixSearch name lengths pa).map Prod.fst
  | [], _, _, h => h
  | length :: rest, pa, k, h => by
    cases hd : dget? pa (name.take length) with
    | none =>
      rw [prefixSearch_cons_free hd]
      exact keys_dset_superset h
    | some val =>
      cases val with
      | none =>
        rw [prefixSearch_cons_tomb hd]
        exact prefixSearch_keys_mono name rest pa k h
      | some prev =>
        rw [prefixSearch_cons_clash hd]
        exact prefixSearch_keys_mono name rest _ k
          (keys_dset_superset (keys_dset_superset h))

end Bikeshare

namespace Bikeshare

theorem mem_reg_cases {pa : PotDict} {fp name k n : PyStr}
    (h : (k, some n) ∈ dset pa fp (some name)) :
    (k = fp ∧ n = name) ∨ (k, some n) ∈ pa := by
  rcases mem_dset_or h with heq | hmem
  · have h2 := Prod.mk.injEq _ _ _ _ ▸ heq
    exact Or.inl ⟨h2.1, Option.some_inj.mp h2.2⟩
  · exact Or.inr hmem

theorem mem_clash_cases {pa : PotDict} {fp prevK prev k n : PyStr}
    (h : (k, some n) ∈ dset (dset pa fp none) prevK (some prev)) :
    (k = prevK ∧ n = prev) ∨ (k, some n) ∈ pa := by
  rcases mem_dset_or h with heq | hmem
  · have h2 := Prod.mk.injEq _ _ _ _ ▸ heq
    exact Or.inl ⟨h2.1, Option.some_inj.mp h2.2⟩
  · rcases mem_dset_or hmem with heq2 | hmem2
    · exact absurd (Prod.mk.injEq _ _ _ _ ▸ heq2).2 (by simp)
    · exact Or.inr hmem2

theorem prefixSearch_inv (name : PyStr) : ∀ (cnt L : Nat) (pa : PotDict)
    (processed : List PyStr),
    1 ≤ L → L + cnt = name.length + 1 →
    PotInv pa processed →
    (∀ k, (k, some name) ∉ pa) →
    name ∉ processed →
    (∀ l, 1 ≤ l → l < L → name.take l ∈ pa.map Prod.fst) →
    PotInv (prefixSearch name (List.range' L cnt) pa) (name :: processed) := by
  intro cnt
  induction cnt with
  | zero =>
    intro L pa processed _ _ hinv _ _ _
    exact potInv_mono hinv (fun x hx => List.mem_cons_of_mem _ hx)
  | succ cnt ih =>
    intro L pa processed hL hsum hinv hnl hnp hJ
    have hLlen : L ≤ name.length := by omega
    have hfplen : (name.take L).length = L := by
      rw [List.length_take]; omega
    have hfpne : name.take L ≠ [] := by
      intro h
      have h2 := congrArg List.length h
      rw [hfplen] at h2
      simp at h2
      omega
    rw [show List.range' L (cnt + 1) = L :: List.range' (L + 1) cnt from rfl]
    cases hd : dget? pa (name.take L) with
    | none =>
      rw [prefixSearch_cons_free hd]
      refine ⟨nodup_keys_dset hinv.nodupKeys, ?_, ?_, ?_, ?_, ?_⟩
      · intro k n hkn
        rcases mem_reg_cases hkn with ⟨hk, _⟩ | hmem
        · rw [hk]; exact hfpne
        · exact hinv.entryNe k n hmem
      · intro k n hkn
        rcases mem_reg_cases hkn with ⟨hk, hn⟩ | hmem
        · rw [hk, hn, take_len_take]
        · exact hinv.entrySlice k n hmem
      · intro k n hkn
        rcases mem_reg_cases hkn with ⟨_, hn⟩ | hmem
        · rw [hn]; exact List.mem_cons_self _ _
        · exact List.mem_cons_of_mem _ (hinv.entryProc k n hmem)
      · intro k n hkn l hl1 hl2
        rcases mem_reg_cases hkn with ⟨hk, hn⟩ | hmem
        · rw [hk, hfplen] at hl2
          rw [hn]
          exact keys_dset_superset (hJ l hl1 hl2)
        · exact keys_dset_superset (hinv.entryMin k n hmem l hl1 hl2)
      · intro k1 k2 n h1 h2
        rcases mem_reg_cases h1 with ⟨hk1, hn1⟩ | hm1 <;>
          rcases mem_reg_cases h2 with ⟨hk2, hn2⟩ | hm2
        · rw [hk1, hk2]
        · exact absurd (hn1 ▸ hm2) (hnl k2)
        · exact absurd (hn2 ▸ hm1) (hnl k1)
        · exact hinv.valUnique k1 k2 n hm1 hm2
    | some val =>
      cases val with
      | none =>
        rw [prefixSearch_cons_tomb hd]
        apply ih (L + 1) pa processed (by omega) (by omega) hinv hnl hnp
        intro l hl1 hl2
        by_cases hlL : l < L
        · exact hJ l hl1 hlL
        · have hleq : l = L := by omega
          rw [hleq]
          exact List.mem_map.mpr ⟨(name.take L, none), dget?_eq_some_mem hd, rfl⟩
      | some prev =>
        rw [prefixSearch_cons_clash hd]
        have hprevmem : (name.take L, some prev) ∈ pa := dget?_eq_some_mem hd
        have hprevproc : prev ∈ processed := hinv.entryProc _ _ hprevmem
        have hprevne : prev ≠ name := fun h => hnp (h ▸ hprevproc)
        have hfp_slice : name.take L = prev.take L := by
          have h0 := hinv.entrySlice _ _ hprevmem
          rw [hfplen] at h0
          exact h0
        have hprev_ne_nil : prev ≠ [] := by
          intro hpn
          apply hfpne
          rw [hfp_slice, hpn, List.take_nil]
        have hprev_len : 1 ≤ prev.length := List.length_pos.mpr hprev_ne_nil
        have hnewkey_len : (prev.take (L + 1)).length = min (L + 1) prev.length :=
          List.length_take _ _
        have hnewkey_ne : prev.take (L + 1) ≠ [] := by
          cases prev with
          | nil => exact absurd rfl hprev_ne_nil
          | cons a t =>
            intro h
            rw [List.take_succ_cons] at h
            exact List.cons_ne_nil _ _ h
        have hinnernd : ((dset pa (name.take L) none).map Prod.fst).Nodup :=
          nodup_keys_dset hinv.nodupKeys
        have hkeys2 : ∀ k, k ∈ pa.map Prod.fst →
            k ∈ ((dset (dset pa (name.take L) none)
              (prev.take (L + 1)) (some prev)).map Prod.fst) :=
          fun k hk => keys_dset_superset (keys_dset_superset hk)
        apply ih (L + 1)
          (dset (dset pa (name.take L) none) (prev.take (L + 1)) (some prev))
          processed (by omega) (by omega) ?_ ?_ hnp ?_
        · -- PotInv of the clash-step dict
          refine ⟨nodup_keys_dset hinnernd, ?_, ?_, ?_, ?_, ?_⟩
          · intro k n hkn
            rcases mem_clash_cases hkn with ⟨hk, _⟩ | hmem
            · rw [hk]; exact hnewkey_ne
            · exact hinv.entryNe k n hmem
          · intro k n hkn
            rcases mem_clash_cases hkn with ⟨hk, hn⟩ | hmem
            · rw [hk, hn, take_len_take]
            · exact hinv.entrySlice k n hmem
          · intro k n hkn
            rcases mem_clash_cases hkn with ⟨_, hn⟩ | hmem
            · rw [hn]; exact hprevproc
            · exact hinv.entryProc k n hmem
          · intro k n hkn l hl1 hl2
            rcases mem_clash_cases hkn with ⟨hk, hn⟩ | hmem
            · rw [hk, hnewkey_len] at hl2
              rw [hn]
              by_cases hlL : l < L
              · refine hkeys2 _ (hinv.entryMin _ _ hprevmem l hl1 ?_)
                rw [hfplen]
                exact hlL
              · have hleq : l = L := by omega
                rw [hleq]
                refine hkeys2 _ ?_
                rw [← hfp_slice]
                exact List.mem_map.mpr ⟨(name.take L, some prev), hprevmem, rfl⟩
            · exact hkeys2 _ (hinv.entryMin k n hmem l hl1 hl2)
          · intro k1 k2 n h1 h2
            by_cases hk1 : k1 = prev.take (L + 1) <;>
              by_cases hk2 : k2 = prev.take (L + 1)
            · rw [hk1, hk2]
            · exfalso
              have hn : n = prev :=
                Option.some_inj.mp (mem_dset_self_eq hinnernd (hk1 ▸ h1))
              have h2i := mem_of_mem_dset_ne h2 hk2
              by_cases hk2f : k2 = name.take L
              · exact absurd (mem_dset_self_eq hinv.nodupKeys (hk2f ▸ h2i))
                  (by simp)
              · have h2p := mem_of_mem_dset_ne h2i hk2f
                exact hk2f (hinv.valUnique k2 (name.take L) n h2p (hn ▸ hprevmem))
            · exfalso
              have hn : n = prev :=
                Option.some_inj.mp (mem_dset_self_eq hinnernd (hk2 ▸ h2))
              have h1i := mem_of_mem_dset_ne h1 hk1
              by_cases hk1f : k1 = name.take L
              · exact absurd (mem_dset_self_eq hinv.nodupKeys (hk1f ▸ h1i))
                  (by simp)
              · have h1p := mem_of_mem_dset_ne h1i hk1f
                exact hk1f (hinv.valUnique k1 (name.take L) n h1p (hn ▸ hprevmem))
            · have h1i := mem_of_mem_dset_ne h1 hk1
              have h2i := mem_of_mem_dset_ne h2 hk2
              by_cases hk1f : k1 = name.take L
              · exact absurd (mem_dset_self_eq hinv.nodupKeys (hk1f ▸ h1i))
                  (by simp)
              · by_cases hk2f : k2 = name.take L
                · exact absurd (mem_dset_self_eq hinv.nodupKeys (hk2f ▸ h2i))
                    (by simp)
                · exact hinv.valUnique k1 k2 n (mem_of_mem_dset_ne h1i hk1f)
                    (mem_of_mem_dset_ne h2i hk2f)
        · -- the current name is still not live
          intro k hk
          rcases mem_clash_cases hk with ⟨_, hn⟩ | hmem
          · exact hprevne hn.symm
          · exact hnl k hmem
        · -- shorter slices of the current name are now all keys
          intro l hl1 hl2
          by_cases hlL : l < L
          · exact hkeys2 _ (hJ l hl1 hlL)
          · have hleq : l = L := by omega
            rw [hleq]
            exact hkeys2 _
              (List.mem_map.mpr ⟨(name.take L, some prev), hprevmem, rfl⟩)

end Bikeshare

namespace Bikeshare

theorem prefixSearch_reg (name : PyStr) : ∀ (cnt L : Nat) (pa : PotDict),
    (∀ k, (k, some name) ∉ pa) →
    (∃ L2, L ≤ L2 ∧ L2 < L + cnt ∧
      dget? (prefixSearch name (List.range' L cnt) pa) (name.take L2) =
        some (some name))
    ∨ (∀ k, (k, some name) ∉ prefixSearch name (List.range' L cnt) pa) := by
  intro cnt
  induction cnt with
  | zero => intro L pa hnl; exact Or.inr hnl
  | succ cnt ih =>
    intro L pa hnl
    rw [show List.range' L (cnt + 1) = L :: List.range' (L + 1) cnt from rfl]
    cases hd : dget? pa (name.take L) with
    | none =>
      rw [prefixSearch_cons_free hd]
      exact Or.inl ⟨L, le_refl L, by omega, dget?_dset_self⟩
    | some val =>
      cases val with
      | none =>
        rw [prefixSearch_cons_tomb hd]
        rcases ih (L + 1) pa hnl with ⟨L2, hle, hlt, hreg⟩ | hno
        · exact Or.inl ⟨L2, by omega, by omega, hreg⟩
        · exact Or.inr hno
      | some prev =>
        rw [prefixSearch_cons_clash hd]
        have hprevne : prev ≠ name := by
          intro h
          have hmem := dget?_eq_some_mem hd
          rw [h] at hmem
          exact hnl (name.take L) hmem
        have hnl2 : ∀ k, (k, some name) ∉
            dset (dset pa (name.take L) none) (prev.take (L + 1)) (some prev) := by
          intro k hk
          rcases mem_clash_cases hk with ⟨_, hn⟩ | hmem
          · exact hprevne hn.symm
          · exact hnl k hmem
        rcases ih (L + 1) _ hnl2 with ⟨L2, hle, hlt, hreg⟩ | hno
        · exact Or.inl ⟨L2, by omega, by omega, hreg⟩
        · exact Or.inr hno

theorem buildPotential_inv : ∀ (names : List PyStr) (pa : PotDict)
    (processed : List PyStr),
    PotInv pa processed →
    names.Nodup →
    (∀ nm ∈ names, nm ∉ processed) →
    (∀ nm ∈ names, containsSub nm notSub = false ∧
      containsSub nm allSub = false) →
    (∀ nm ∈ names, ∀ k, (k, some nm) ∉ pa) →
    PotInv (buildPotential names pa) (names ++ processed)
  | [], _, _, hinv, _, _, _, _ => hinv
  | nm :: rest, pa, processed, hinv, hnd, hnp, hcatch, hnl => by
    have hc := hcatch nm (List.mem_cons_self _ _)
    rw [buildPotential, if_neg (by simp [hc.1]), if_neg (by simp [hc.2])]
    have hndc := List.nodup_cons.mp hnd
    have hmaster := prefixSearch_inv nm nm.length 1 pa processed (le_refl 1)
      (by omega) hinv (hnl nm (List.mem_cons_self _ _))
      (hnp nm (List.mem_cons_self _ _))
      (fun l hl1 hl2 => absurd hl2 (by omega))
    have hres := buildPotential_inv rest
      (prefixSearch nm (List.range' 1 nm.length) pa) (nm :: processed) hmaster
      hndc.2
      (fun q hq => by
        intro hmem
        rcases List.mem_cons.mp hmem with h1 | h1
        · exact hndc.1 (h1 ▸ hq)
        · exact hnp q (List.mem_cons_of_mem _ hq) h1)
      (fun q hq => hcatch q (List.mem_cons_of_mem _ hq))
      (fun q hq k hk => by
        rcases prefixSearch_live_sub nm _ pa q k hk with h1 | ⟨k2, h2⟩
        · exact hndc.1 (h1 ▸ hq)
        · exact hnl q (List.mem_cons_of_mem _ hq) k2 h2)
    exact potInv_mono hres (fun x hx => by
      simp only [List.mem_append, List.mem_cons] at hx ⊢
      tauto)

theorem surviving_keys_sublist : ∀ (pa : PotDict),
    ((surviving pa).map Prod.fst).Sublist (pa.map Prod.fst)
  | [] => by simp [surviving]
  | (k, v) :: rest => by
    cases v with
    | none =>
      simp only [surviving, List.filterMap_cons]
      exact List.Sublist.cons _ (surviving_keys_sublist rest)
    | some w =>
      simp only [surviving, List.filterMap_cons]
      exact List.Sublist.cons₂ _ (surviving_keys_sublist rest)

/-! ### Claim C1 and C2 theorems -/

/-- C1 (corrected): on every list of pairwise-distinct space-free names with
no `"not"`/`"all"` substrings on which `generate_name_prompts` returns
normally, the returned map's keys are pairwise distinct, every entry's key is
a non-empty left-slice of its name, every input name is the value of exactly
one entry (round trip), and every key is minimal in that each strictly
shorter non-empty left-slice of the name was also assigned as an abbreviation
key during generation (possibly tombstoned later); the original claim's
unconditional form fails because the function does not always return (see the
counterexample). -/
theorem generate_name_prompts_roundtrip :
    ∀ (names ps : List PyStr) (abbrs : List (PyStr × PyStr)),
      names.Nodup →
      (∀ nm ∈ names, ' ' ∉ nm ∧ containsSub nm notSub = false ∧
        containsSub nm allSub = false) →
      generate_name_prompts names = some (ps, abbrs) →
      (abbrs.map Prod.fst).Nodup
      ∧ (∀ p ∈ abbrs, p.1 ≠ [] ∧ p.1 = p.2.take p.1.length ∧ p.2 ∈ names)
      ∧ (∀ nm ∈ names, ∃! k, (k, nm) ∈ abbrs)
      ∧ (∀ p ∈ abbrs, ∀ l, 1 ≤ l → l < p.1.length →
        p.2.take l ∈ (buildPotential names []).map Prod.fst) := by
  intro names ps abbrs hnd hfree h
  have hinv : PotInv (buildPotential names []) names := by
    have h0 := buildPotential_inv names [] [] potInv_nil hnd (by simp)
      (fun nm hm => ⟨(hfree nm hm).2.1, (hfree nm hm).2.2⟩) (by simp)
    simpa using h0
  rw [generate_name_prompts] at h
  cases hpf : promptsFor names (invertMap (surviving (buildPotential names []))) with
  | none => rw [hpf] at h; exact absurd h (by simp)
  | some ps2 =>
    rw [hpf] at h
    have h2 := Option.some_inj.mp h
    have habbrs : surviving (buildPotential names []) = abbrs :=
      (Prod.mk.injEq _ _ _ _ ▸ h2).2
    have hmemS : ∀ p : PyStr × PyStr, p ∈ abbrs →
        (p.1, some p.2) ∈ buildPotential names [] := by
      intro p hp
      rw [← habbrs] at hp
      exact mem_surviving.mp (by rw [Prod.mk.eta]; exact hp)
    refine ⟨?_, ?_, ?_, ?_⟩
    · rw [← habbrs]
      exact List.Nodup.sublist (surviving_keys_sublist _) hinv.nodupKeys
    · intro p hp
      have hm := hmemS p hp
      exact ⟨hinv.entryNe _ _ hm, hinv.entrySlice _ _ hm, hinv.entryProc _ _ hm⟩
    · intro nm hnm
      obtain ⟨⟨i, hi⟩, rfl⟩ := List.mem_iff_get.mp hnm
      obtain ⟨hlen, hget⟩ := promptsFor_shape names _ _ hpf
      obtain ⟨k, hk, _⟩ := hget i hi (by rw [hlen]; exact hi)
      have hkm : (k, names.get ⟨i, hi⟩) ∈ abbrs := by
        rw [← habbrs]
        exact invertMap_mem hk
      refine ⟨k, hkm, ?_⟩
      intro k2 hk2
      exact hinv.valUnique k2 k _ (hmemS _ hk2) (hmemS _ hkm)
    · intro p hp l hl1 hl2
      exact hinv.entryMin _ _ (hmemS p hp) l hl1 hl2

/-- Counterexample for C1: `["ab","a"]` is pairwise-distinct, space-free,
with no catch-all substrings, yet `generate_name_prompts` does not return an
AbbreviationMap at all: `"a"` exhausts its single prefix length on a clash
and the final lookup raises `KeyError` (modelled `none`). -/
theorem generate_name_prompts_failure_cex :
    [pyStr "ab", pyStr "a"].Nodup
    ∧ (∀ nm ∈ [pyStr "ab", pyStr "a"], ' ' ∉ nm ∧
        containsSub nm notSub = false ∧ containsSub nm allSub = false)
    ∧ generate_name_prompts [pyStr "ab", pyStr "a"] = none := by
  refine ⟨by decide, by decide, by decide⟩

/-- Witness for C1: the round-trip statement applied to `["xyz","xyw"]`,
a run that returns normally after two displacements. -/
theorem generate_name_prompts_roundtrip_witness :
    generate_name_prompts [pyStr "xyz", pyStr "xyw"] =
      some ([pyStr "xyz [xyz]", pyStr "xyw [xyw]"],
        [(pyStr "xyz", pyStr "xyz"), (pyStr "xyw", pyStr "xyw")])
    ∧ ∀ nm ∈ [pyStr "xyz", pyStr "xyw"], ∃! k,
        (k, nm) ∈ [(pyStr "xyz", pyStr "xyz"), (pyStr "xyw", pyStr "xyw")] := by
  have hg : generate_name_prompts [pyStr "xyz", pyStr "xyw"] =
      some ([pyStr "xyz [xyz]", pyStr "xyw [xyw]"],
        [(pyStr "xyz", pyStr "xyz"), (pyStr "xyw", pyStr "xyw")]) := by decide
  exact ⟨hg,
    (generate_name_prompts_roundtrip _ _ _ (by decide) (by decide) hg).2.2.1⟩

/-- C2 (corrected): the prefix-growing search always terminates, examining
only lengths `1 .. len(name)`: either the current name gets registered at
some such length, or — when every length clashes — it is left unregistered
(refuting the claim's "always registers"); on a clash at length `L` with a
live earlier name, that name is re-registered under its own first `L+1`
characters (capped at its own length by Python slicing, and overwriting
whatever held that key) and the clashed slot is tombstoned unless the
re-registration lands back on the same key; the current name, never the
earlier one, continues searching. -/
theorem prefix_search_registration :
    ∀ (name : PyStr) (pa : PotDict),
      (∀ k, (k, some name) ∉ pa) →
      ((∃ L, 1 ≤ L ∧ L ≤ name.length ∧
        dget? (prefixSearch name (List.range' 1 name.length) pa)
          (name.take L) = some (some name))
       ∨ (∀ k, (k, some name) ∉
          prefixSearch name (List.range' 1 name.length) pa))
      ∧ (∀ (L : Nat) (rest : List Nat) (prev : PyStr),
        dget? pa (name.take L) = some (some prev) →
        prefixSearch name (L :: rest) pa =
          prefixSearch name rest
            (dset (dset pa (name.take L) none) (prev.take (L + 1)) (some prev))
        ∧ dget? (dset (dset pa (name.take L) none)
            (prev.take (L + 1)) (some prev)) (prev.take (L + 1)) =
          some (some prev)
        ∧ (prev.take (L + 1) ≠ name.take L →
          dget? (dset (dset pa (name.take L) none)
            (prev.take (L + 1)) (some prev)) (name.take L) = some none))
      ∧ (∀ (L : Nat) (rest : List Nat),
        dget? pa (name.take L) = none →
        prefixSearch name (L :: rest) pa = dset pa (name.take L) (some name)) := by
  intro name pa hnl
  refine ⟨?_, ?_, ?_⟩
  · rcases prefixSearch_reg name name.length 1 pa hnl with ⟨L2, h1, h2, h3⟩ | hno
    · exact Or.inl ⟨L2, h1, by omega, h3⟩
    · exact Or.inr hno
  · intro L rest prev hd
    refine ⟨prefixSearch_cons_clash hd, dget?_dset_self, fun hne => ?_⟩
    rw [dget?_dset_ne (fun hx => hne hx.symm), dget?_dset_self]
  · intro L rest hd
    exact prefixSearch_cons_free hd

/-- Counterexample for C2: for the non-catch-all name `"x"` in
`["xy","x"]`, the search terminates without registering `"x"` at any prefix
length — in the final dict `"x"` appears only as a tombstoned key, never as
a value — and the whole call then fails, refuting "terminates for every
non-catch-all name by registering it". -/
theorem prefix_search_unregistered_cex :
    containsSub (pyStr "x") notSub = false
    ∧ containsSub (pyStr "x") allSub = false
    ∧ buildPotential [pyStr "xy", pyStr "x"] [] =
      [(pyStr "x", none), (pyStr "xy", some (pyStr "xy"))]
    ∧ generate_name_prompts [pyStr "xy", pyStr "x"] = none := by
  refine ⟨by decide, by decide, by decide, by decide⟩

/-- Witness for C2: the registration dichotomy applied to `"day"` on the
empty dict. -/
theorem prefix_search_registration_witness :
    (∃ L, 1 ≤ L ∧ L ≤ (pyStr "day").length ∧
      dget? (prefixSearch (pyStr "day")
        (List.range' 1 (pyStr "day").length) []) ((pyStr "day").take L) =
      some (some (pyStr "day")))
    ∨ (∀ k, (k, some (pyStr "day")) ∉
        prefixSearch (pyStr "day") (List.range' 1 (pyStr "day").length) []) :=
  (prefix_search_registration (pyStr "day") [] (fun k hk => by simp at hk)).1

end Bikeshare
